import Mathlib

/-!
A verification development for the connectome core: the dependency graph of
named per-key computations, fingerprint derivation, the evaluator and the
cache tiers. The Python core is modelled directly from the design
specification (spec.md): graphs are topologically ordered lists of nodes
(most downstream node first), each node referring to its dependencies by a
back-reference into the remainder of the list, which makes acyclicity
structural, exactly as the spec's "composition only ever appends Nodes whose
dependencies point strictly at already-existing Nodes" requires.
-/

/-- Modelled from the spec: a Key is an "opaque, comparable, hashable
identifier for one dataset entry"; we model it as a natural number. -/
abbrev Key := Nat

/-- Modelled from the spec: the hash of a key used at source (leaf) nodes.
The spec idealizes hashes as collision-resistant identities, so the model
takes an injective (identity) key hash. -/
def keyHash (k : Key) : Nat := k

/-- Modelled from the spec: a Fingerprint is "a fixed-size, comparable,
hashable value"; we model it as a natural number produced by an injective
combination function (the spec relies on collision resistance, which the
model idealizes as injectivity). -/
abbrev Fingerprint := Nat

/-- An injective encoding of a list of naturals into one natural, used as the
order-sensitive combination of the ordered dependency fingerprints. -/
def encodeList : List Nat → Nat
  | [] => 0
  | x :: xs => Nat.pair x (encodeList xs) + 1

/-- Modelled from the spec: a Node is "one computable unit": a stable name,
the structural identity of its logic (`logic_identity`), the ordered list of
dependency references, and the logic itself. Dependencies are back-references
into the topologically ordered graph list: a node at index `i` with a
dependency entry `d` depends on the node at index `i + 1 + d`. The logic maps
the resolved dependency values (and, for source nodes, the Key) to an output
value, and may fail. -/
structure Node (V : Type) where
  name : String
  logicId : Nat
  deps : List Nat
  logic : List V → Key → Except String V

/-- Modelled from the spec: a Graph is the acyclic structure of Nodes in
topological order, most downstream node first; composition prepends new
nodes, so acyclicity is structural. -/
abbrev Graph (V : Type) := List (Node V)

/-- The ordered fingerprints of a node's dependencies, looked up among the
fingerprints of the nodes upstream of it. -/
def depFps (fs : List Fingerprint) (deps : List Nat) : List Fingerprint :=
  deps.map (fun d => fs.getD d 0)

/-- Modelled from the spec: fingerprint derivation combines
`N.logic_identity`, the ordered list of dependency Fingerprints, and — only
for source (leaf) Nodes — a hash of the key, into one value with a fixed,
order-sensitive, injective combination function. The tag (1 for leaves, 0
for transforms) keeps the two shapes disjoint. -/
def mkFp (n : Node V) (fs : List Fingerprint) (k : Key) : Fingerprint :=
  if n.deps.isEmpty then Nat.pair n.logicId (Nat.pair 1 (keyHash k))
  else Nat.pair n.logicId (Nat.pair 0 (encodeList (depFps fs n.deps)))

/-- Modelled from the spec: the fingerprints of all nodes of a graph for a
given key, bottom-up; the list is aligned with the graph (entry `i` is the
fingerprint of node `i`). -/
def fps : Graph V → Key → List Fingerprint
  | [], _ => []
  | n :: rest, k => mkFp n (fps rest k) k :: fps rest k

/-- The fingerprint of the node at index `i` (0 when out of range). -/
def fpAt (g : Graph V) (k : Key) (i : Nat) : Fingerprint :=
  (fps g k).getD i 0

/-- Modelled from the spec: transitive dependency between graph indices;
`DependsOn g i j` holds when node `i` (transitively) depends on node `j`. -/
inductive DependsOn (g : Graph V) : Nat → Nat → Prop where
  | direct : ∀ i d (h : i < g.length), d ∈ (g.get ⟨i, h⟩).deps →
      DependsOn g i (i + 1 + d)
  | step : ∀ i d j (h : i < g.length), d ∈ (g.get ⟨i, h⟩).deps →
      DependsOn g (i + 1 + d) j → DependsOn g i j

/-- Modelled from the spec: the RAM cache tier, "an in-process associative
store from Fingerprint to value", as an association list (newest first). -/
structure Cache (V : Type) where
  entries : List (Fingerprint × V)
deriving DecidableEq

/-- A fresh, empty cache. -/
def Cache.empty : Cache V := ⟨[]⟩

/-- Modelled from the spec: `get(fingerprint) -> Option<value>`. -/
def Cache.get (c : Cache V) (f : Fingerprint) : Option V :=
  (c.entries.find? (fun e => e.1 == f)).map (·.2)

/-- Modelled from the spec: `put(fingerprint, value)`. -/
def Cache.put (c : Cache V) (f : Fingerprint) (v : V) : Cache V :=
  ⟨(f, v) :: c.entries⟩

/-- Modelled from the spec: a `ComputationError` carries the failing Node's
id and the original cause; `cache` is the cache state when the failure
occurred (entries already committed for upstream nodes are retained). -/
structure CompError (V : Type) where
  nodeId : String
  cause : String
  cache : Cache V
deriving DecidableEq

/-- The observable outcome of one evaluation call: the values and
fingerprints of every node (aligned with the graph), the final cache state,
and the names of the nodes whose logic was actually invoked. -/
structure RunResult (V : Type) where
  values : List V
  fps : List Fingerprint
  cache : Cache V
  invoked : List String
deriving DecidableEq

/-- Modelled from the spec: the Evaluator. It walks the graph bottom-up; at
each node it computes the fingerprint from the node's logic identity and its
dependencies' fingerprints, probes the cache, on hit adopts the cached value
without invoking the logic, on miss invokes the logic with the resolved
dependency values and stores the result keyed by the fingerprint. A failing
logic aborts the call with a `CompError` naming the node and the cause; no
entry is written for the failing node or anything downstream of it. -/
def run [Inhabited V] : Graph V → Key → Cache V → Except (CompError V) (RunResult V)
  | [], _, c => .ok ⟨[], [], c, []⟩
  | n :: rest, k, c =>
    match run rest k c with
    | .error e => .error e
    | .ok r =>
      let f := mkFp n r.fps k
      match r.cache.get f with
      | some v => .ok ⟨v :: r.values, f :: r.fps, r.cache, r.invoked⟩
      | none =>
        match n.logic (n.deps.map (fun d => r.values.getD d default)) k with
        | .ok v => .ok ⟨v :: r.values, f :: r.fps, r.cache.put f v, n.name :: r.invoked⟩
        | .error s => .error ⟨n.name, s, r.cache⟩

/-- The index of the node producing a named field (most downstream first). -/
def fieldIndex : Graph V → String → Option Nat
  | [], _ => none
  | n :: rest, s => if n.name = s then some 0 else (fieldIndex rest s).map (· + 1)

/-- Modelled from the spec: the evaluation entry point
`evaluate(graph, field, key) -> value`, here also returning the run outcome
(final cache and invocation record) so the cache contract is observable. -/
def evaluate [Inhabited V] (g : Graph V) (field : String) (k : Key) (c : Cache V) :
    Except (CompError V) (V × RunResult V) :=
  match run g k c with
  | .error e => .error e
  | .ok r =>
    match fieldIndex g field with
    | some i => .ok (r.values.getD i default, r)
    | none => .error ⟨field, "unknown field", c⟩

/-! ### Layer composition -/

/-- Modelled from the spec: one output declared by a layer descriptor: its
name, the structural identity of its logic, the upstream fields it depends
on (by name), whether the name is explicitly marked as an override of an
existing field, and the logic itself. -/
structure LayerNode (V : Type) where
  name : String
  logicId : Nat
  deps : List String
  override : Bool
  logic : List V → Key → Except String V

/-- Modelled from the spec: a layer descriptor is a sequence of declared
outputs whose dependencies point at the previous Graph's nodes. -/
abbrev Layer (V : Type) := List (LayerNode V)

/-- Modelled from the spec: composition-time errors, "fatal to building that
Graph — never deferred". -/
inductive ComposeError where
  | nameConflict (field : String)
  | unresolvedDependency (field : String)
deriving DecidableEq

/-- The field names exposed by a graph. -/
def fieldNames (g : Graph V) : List String := g.map (·.name)

/-- A layer output collides with an existing field it does not override. -/
def conflictsB (g : Graph V) (ln : LayerNode V) : Bool :=
  !ln.override && (fieldNames g).contains ln.name

/-- The first dependency of a layer output that no upstream field provides. -/
def missingDep (g : Graph V) (ln : LayerNode V) : Option String :=
  ln.deps.find? (fun s => !((fieldNames g).contains s))

/-- The upstream index a field name resolves to (0 as a dummy when absent;
composition only uses it after checking every dependency resolves). -/
def resolveIndex (g : Graph V) (s : String) : Nat := (fieldIndex g s).getD 0

/-- Build the graph node for the layer output at position `p` of a layer of
`m` outputs: dependencies become back-references past the remaining `m-1-p`
new nodes into the previous graph. -/
def composeNode (g : Graph V) (m p : Nat) (ln : LayerNode V) : Node V :=
  ⟨ln.name, ln.logicId, ln.deps.map (fun s => m - 1 - p + resolveIndex g s), ln.logic⟩

/-- Build the graph nodes of a whole layer, positions counted from `p`. -/
def composeNodes (g : Graph V) (m : Nat) : Nat → List (LayerNode V) → List (Node V)
  | _, [] => []
  | p, ln :: rest => composeNode g m p ln :: composeNodes g m (p + 1) rest

/-- Modelled from the spec: composing a layer onto a graph. Structural errors
surface here: a declared output name colliding with an existing field not
marked as override is a `nameConflict`; a dependency naming a nonexistent
upstream field is an `unresolvedDependency`. On success the new nodes are
prepended (append-only construction); no existing node is modified. -/
def compose (g : Graph V) (L : Layer V) : Except ComposeError (Graph V) :=
  match L.find? (conflictsB g) with
  | some ln => .error (.nameConflict ln.name)
  | none =>
    match L.find? (fun ln => (missingDep g ln).isSome) with
    | some ln => .error (.unresolvedDependency ((missingDep g ln).getD ln.name))
    | none => .ok (composeNodes g L.length 0 L ++ g)

/-- Every dependency back-reference of every node stays inside the graph;
a graph built by `compose` keeps this invariant, so evaluation never meets a
dangling dependency. -/
def wfB : Graph V → Bool
  | [] => true
  | n :: rest => n.deps.all (fun d => d < rest.length) && wfB rest

/-! ### Disk tier -/

/-- The state of a file of the disk tier: still being written to a temporary
location, or atomically published (committed). -/
inductive FileKind where
  | temp
  | final
deriving DecidableEq

/-- One stored object of the disk tier, named by a fingerprint. -/
structure DiskFile (V : Type) where
  fp : Fingerprint
  kind : FileKind
  value : V
deriving DecidableEq

/-- Modelled from the spec: the Disk cache tier, "a persistent associative
store from Fingerprint to serialized value"; files are content-addressed by
fingerprint, and a `put` writes to a temporary location before atomically
publishing (rename-into-place). -/
structure DiskCache (V : Type) where
  files : List (DiskFile V)
deriving DecidableEq

/-- Modelled from the spec: `get` returns the stored value only from a
durably committed (published) entry for exactly that fingerprint; files
still in the temporary state are never observable as hits. -/
def DiskCache.get (c : DiskCache V) (f : Fingerprint) : Option V :=
  (c.files.find? (fun df => decide (df.fp = f) && decide (df.kind = FileKind.final))).map (·.value)

/-- Write a value for a fingerprint to a temporary (uncommitted) location. -/
def DiskCache.beginPut (c : DiskCache V) (f : Fingerprint) (v : V) : DiskCache V :=
  ⟨⟨f, FileKind.temp, v⟩ :: c.files⟩

/-- Atomically publish the most recent temporary file for a fingerprint
(rename-into-place). -/
def publishFirst (f : Fingerprint) : List (DiskFile V) → List (DiskFile V)
  | [] => []
  | df :: rest =>
    if df.fp = f ∧ df.kind = FileKind.temp then ⟨df.fp, FileKind.final, df.value⟩ :: rest
    else df :: publishFirst f rest

/-- Publish the pending temporary file for a fingerprint. -/
def DiskCache.publish (c : DiskCache V) (f : Fingerprint) : DiskCache V :=
  ⟨publishFirst f c.files⟩

/-- Modelled from the spec: a complete `put` — write to a temporary location,
then atomically publish. -/
def DiskCache.put (c : DiskCache V) (f : Fingerprint) (v : V) : DiskCache V :=
  (c.beginPut f v).publish f

/-- Modelled from the spec: a freshly constructed `CacheToRam` layer owns a
new, empty in-process store; entries are scoped to the instance. -/
def CacheToRam.new : Cache V := ⟨[]⟩

/-- A cache holds the correct entry for every node of the graph: probing it
with node `i`'s fingerprint yields node `i`'s value. -/
def Covers [Inhabited V] (c : Cache V) (g : Graph V) (k : Key) (vals : List V) : Prop :=
  ∀ i, i < g.length → c.get (fpAt g k i) = some (vals.getD i default)

/-! ### A concrete pipeline (the tutorial's source → Binarize → Zoom → Crop
chain, with the Zoom factor as the logic parameter), used as witness data. -/

def exSource : Node Nat := ⟨"source", 1, [], fun _ k => Except.ok k⟩

def exBinarize : Node Nat := ⟨"binarize", 2, [0], fun vs _ => Except.ok (vs.getD 0 0 % 2)⟩

def exZoom (factor : Nat) : Node Nat :=
  ⟨"zoom", factor, [0], fun vs _ => Except.ok (vs.getD 0 0 * factor)⟩

def exCrop : Node Nat := ⟨"crop", 3, [0], fun vs _ => Except.ok (vs.getD 0 0 + 1)⟩

def exChain (factor : Nat) : Graph Nat := [exCrop, exZoom factor, exBinarize, exSource]

/-- The run outcome of a successful evaluation (dummy on failure). -/
def runOk [Inhabited V] (g : Graph V) (k : Key) (c : Cache V) : RunResult V :=
  match run g k c with
  | .ok r => r
  | .error _ => ⟨[], [], c, []⟩

/-- The error of a failing evaluation (dummy on success). -/
def runErr [Inhabited V] (g : Graph V) (k : Key) (c : Cache V) : CompError V :=
  match run g k c with
  | .error e => e
  | .ok _ => ⟨"", "", c⟩

/-- A node behaviorally like `exZoom 25` but with a different name and a
differently written logic function: only the tuple that the spec names
enters the fingerprint. -/
def exZoomAlt : Node Nat :=
  ⟨"zoomAlt", 25, [0], fun vs _ => Except.ok (vs.getD 0 0 * 5 * 5)⟩

/-- A zoom stage whose logic fails. -/
def exZoomBad : Node Nat := ⟨"zoom", 99, [0], fun _ _ => Except.error "boom"⟩

def exChainBad : Graph Nat := [exCrop, exZoomBad, exBinarize, exSource]

/-- A diamond: `top` consumes `left` and `right`, which share `shared`. -/
def exTop : Node Nat := ⟨"top", 4, [0, 1], fun vs _ => Except.ok (vs.getD 0 0 + vs.getD 1 0)⟩

def exLeft : Node Nat := ⟨"left", 5, [1], fun vs _ => Except.ok (vs.getD 0 0 + 1)⟩

def exRight : Node Nat := ⟨"right", 6, [0], fun vs _ => Except.ok (vs.getD 0 0 * 2)⟩

def exShared : Node Nat := ⟨"shared", 7, [], fun _ k => Except.ok k⟩

def exDiamond : Graph Nat := [exTop, exLeft, exRight, exShared]

def exBase : Graph Nat := [exSource]

/-- A layer output extending `exBase` with a binarize field. -/
def exLayerNode : LayerNode Nat :=
  ⟨"binarize", 2, ["source"], false, fun vs _ => Except.ok (vs.getD 0 0 % 2)⟩

/-- A layer output whose name collides with the existing `source` field. -/
def exConflictLN : LayerNode Nat := ⟨"source", 9, [], false, fun _ k => Except.ok k⟩

/-- A layer output depending on a nonexistent upstream field. -/
def exMissingLN : LayerNode Nat :=
  ⟨"crop", 9, ["nonexistent"], false, fun vs _ => Except.ok (vs.getD 0 0)⟩

/-- The graph a successful composition produces (the input graph on failure). -/
def composeOk (g : Graph V) (L : Layer V) : Graph V :=
  match compose g L with
  | .ok g2 => g2
  | .error _ => g

/-! ### Basic structural lemmas -/

theorem encodeList_injective : Function.Injective encodeList := by
  intro a
  induction a with
  | nil =>
    intro b h
    cases b with
    | nil => rfl
    | cons y ys => simp [encodeList] at h
  | cons x xs ih =>
    intro b h
    cases b with
    | nil => simp [encodeList] at h
    | cons y ys =>
      simp only [encodeList, Nat.add_right_cancel_iff] at h
      rcases Nat.pair_eq_pair.mp h with ⟨h1, h2⟩
      rw [h1, ih h2]

theorem fps_length (g : Graph V) (k : Key) : (fps g k).length = g.length := by
  induction g with
  | nil => rfl
  | cons n rest ih => simp [fps, ih]

theorem fps_drop (g : Graph V) (k : Key) (m : Nat) :
    (fps g k).drop m = fps (g.drop m) k := by
  induction g generalizing m with
  | nil => simp [fps]
  | cons n rest ih =>
    cases m with
    | zero => simp
    | succ m => simpa [fps] using ih m

theorem listGetD_drop (l : List α) (m i : Nat) (d : α) :
    (l.drop m).getD i d = l.getD (m + i) d := by
  simp [List.getD_eq_getElem?_getD, List.getElem?_drop]

theorem fpAt_drop (g : Graph V) (k : Key) (m i : Nat) :
    fpAt (g.drop m) k i = fpAt g k (m + i) := by
  rw [fpAt, fpAt, ← fps_drop, listGetD_drop]

theorem fpAt_cons_succ (n : Node V) (g : Graph V) (k : Key) (i : Nat) :
    fpAt (n :: g) k (i + 1) = fpAt g k i := by
  have h := fpAt_drop (n :: g) k 1 i
  simp only [List.drop_succ_cons, List.drop_zero] at h
  rw [Nat.add_comm i 1, ← h]

theorem fpAt_eq (g : Graph V) (k : Key) (i : Nat) (h : i < g.length) :
    fpAt g k i = mkFp (g.get ⟨i, h⟩) (fps (g.drop (i + 1)) k) k := by
  induction g generalizing i with
  | nil => cases h
  | cons n rest ih =>
    cases i with
    | zero => simp [fpAt, fps]
    | succ i =>
      rw [fpAt_cons_succ]
      simpa using ih i (Nat.lt_of_succ_lt_succ h)

theorem depFps_fpAt (g : Graph V) (k : Key) (i : Nat) (deps : List Nat) :
    depFps (fps (g.drop (i + 1)) k) deps
      = deps.map (fun d => fpAt g k (i + 1 + d)) := by
  unfold depFps
  refine List.map_congr_left (fun d _ => ?_)
  rw [← fps_drop]
  show (((fps g k).drop (i+1)).getD d 0) = fpAt g k (i + 1 + d)
  rw [listGetD_drop]
  rfl

/-- The fingerprint of node `i` is the combination of its logic identity,
the key hash (for leaves), and the fingerprints of the nodes it refers to. -/
theorem fpAt_node (g : Graph V) (k : Key) (i : Nat) (h : i < g.length) :
    fpAt g k i =
      (if (g.get ⟨i, h⟩).deps.isEmpty then
        Nat.pair (g.get ⟨i, h⟩).logicId (Nat.pair 1 (keyHash k))
      else
        Nat.pair (g.get ⟨i, h⟩).logicId
          (Nat.pair 0 (encodeList ((g.get ⟨i, h⟩).deps.map (fun d => fpAt g k (i + 1 + d)))))) := by
  rw [fpAt_eq g k i h, mkFp, depFps_fpAt]

/-! ### Cache lemmas -/

theorem Cache.get_empty (f : Fingerprint) : (Cache.empty (V := V)).get f = none := rfl

theorem Cache.get_put_self (c : Cache V) (f : Fingerprint) (v : V) :
    (c.put f v).get f = some v := by
  simp [Cache.get, Cache.put, List.find?]

theorem Cache.get_put_ne (c : Cache V) (f f' : Fingerprint) (v : V) (h : f' ≠ f) :
    (c.put f v).get f' = c.get f' := by
  simp only [Cache.get, Cache.put, List.find?]
  have : ((f, v).1 == f') = false := by
    simp [beq_iff_eq]
    exact fun hh => h hh.symm
  simp [this]

/-! ### Evaluator lemmas -/

theorem run_fps [Inhabited V] (g : Graph V) (k : Key) (c : Cache V) (r : RunResult V)
    (h : run g k c = .ok r) : r.fps = fps g k := by
  induction g generalizing c r with
  | nil =>
    simp only [run] at h
    cases h
    rfl
  | cons n rest ih =>
    simp only [run] at h
    cases hrest : run rest k c with
    | error e => rw [hrest] at h; cases h
    | ok r1 =>
      rw [hrest] at h
      have h1 := ih c r1 hrest
      dsimp only at h
      cases hget : r1.cache.get (mkFp n r1.fps k) with
      | some v =>
        rw [hget] at h
        cases h
        simp [fps, h1]
      | none =>
        rw [hget] at h
        cases hlog : n.logic (n.deps.map (fun d => r1.values.getD d default)) k with
        | ok v =>
          rw [hlog] at h
          cases h
          simp [fps, h1]
        | error s => rw [hlog] at h; cases h

theorem run_values_length [Inhabited V] (g : Graph V) (k : Key) (c : Cache V) (r : RunResult V)
    (h : run g k c = .ok r) : r.values.length = g.length := by
  induction g generalizing c r with
  | nil =>
    simp only [run] at h
    cases h
    rfl
  | cons n rest ih =>
    simp only [run] at h
    cases hrest : run rest k c with
    | error e => rw [hrest] at h; cases h
    | ok r1 =>
      rw [hrest] at h
      have h1 := ih c r1 hrest
      dsimp only at h
      cases hget : r1.cache.get (mkFp n r1.fps k) with
      | some v =>
        rw [hget] at h
        cases h
        simp [h1]
      | none =>
        rw [hget] at h
        cases hlog : n.logic (n.deps.map (fun d => r1.values.getD d default)) k with
        | ok v =>
          rw [hlog] at h
          cases h
          simp [h1]
        | error s => rw [hlog] at h; cases h

/-- New cache entries created by a run are keyed only by fingerprints of the
evaluated graph. -/
theorem run_new_entries [Inhabited V] (g : Graph V) (k : Key) (c : Cache V) (r : RunResult V)
    (h : run g k c = .ok r) : ∀ f, r.cache.get f ≠ c.get f → f ∈ fps g k := by
  induction g generalizing c r with
  | nil =>
    simp only [run] at h
    cases h
    intro f hf
    exact absurd rfl hf
  | cons n rest ih =>
    simp only [run] at h
    cases hrest : run rest k c with
    | error e => rw [hrest] at h; cases h
    | ok r1 =>
      rw [hrest] at h
      have hfp1 := run_fps rest k c r1 hrest
      dsimp only at h
      cases hget : r1.cache.get (mkFp n r1.fps k) with
      | some v =>
        rw [hget] at h
        cases h
        intro f hf
        exact List.mem_cons_of_mem _ (ih c r1 hrest f hf)
      | none =>
        rw [hget] at h
        cases hlog : n.logic (n.deps.map (fun d => r1.values.getD d default)) k with
        | ok v =>
          rw [hlog] at h
          cases h
          intro f hf
          by_cases heq : f = mkFp n r1.fps k
          · rw [hfp1] at heq
            simp [fps, heq]
          · rw [Cache.get_put_ne r1.cache _ f v heq] at hf
            exact List.mem_cons_of_mem _ (ih c r1 hrest f hf)
        | error s => rw [hlog] at h; cases h

theorem fpAt_mem (g : Graph V) (k : Key) (i : Nat) (h : i < g.length) :
    fpAt g k i ∈ fps g k := by
  rw [fpAt, List.getD_eq_getElem?_getD]
  have hlt : i < (fps g k).length := by rw [fps_length]; exact h
  rw [List.getElem?_eq_getElem hlt]
  exact List.getElem_mem hlt

/-- After a successful run, the final cache holds the run's value for every
node's fingerprint. -/
theorem run_cache_covers [Inhabited V] (g : Graph V) (k : Key) (c : Cache V) (r : RunResult V)
    (h : run g k c = .ok r) : Covers r.cache g k r.values := by
  induction g generalizing c r with
  | nil =>
    intro i hi
    cases hi
  | cons n rest ih =>
    simp only [run] at h
    cases hrest : run rest k c with
    | error e => rw [hrest] at h; cases h
    | ok r1 =>
      rw [hrest] at h
      have hfp1 := run_fps rest k c r1 hrest
      dsimp only at h
      cases hget : r1.cache.get (mkFp n r1.fps k) with
      | some v =>
        rw [hget] at h
        cases h
        intro i hi
        cases i with
        | zero =>
          show r1.cache.get (fpAt (n :: rest) k 0) = some v
          have : fpAt (n :: rest) k 0 = mkFp n r1.fps k := by
            rw [fpAt, fps, hfp1]
            rfl
          rw [this, hget]
        | succ i =>
          have hi' : i < rest.length := Nat.lt_of_succ_lt_succ hi
          show r1.cache.get (fpAt (n :: rest) k (i + 1)) = some (List.getD (v :: r1.values) (i+1) default)
          rw [fpAt_cons_succ]
          exact ih c r1 hrest i hi'
      | none =>
        rw [hget] at h
        cases hlog : n.logic (n.deps.map (fun d => r1.values.getD d default)) k with
        | ok v =>
          rw [hlog] at h
          cases h
          intro i hi
          cases i with
          | zero =>
            show (r1.cache.put (mkFp n r1.fps k) v).get (fpAt (n :: rest) k 0) = some v
            have : fpAt (n :: rest) k 0 = mkFp n r1.fps k := by
              rw [fpAt, fps, hfp1]
              rfl
            rw [this, Cache.get_put_self]
          | succ i =>
            have hi' : i < rest.length := Nat.lt_of_succ_lt_succ hi
            show (r1.cache.put (mkFp n r1.fps k) v).get (fpAt (n :: rest) k (i + 1))
              = some (List.getD (v :: r1.values) (i+1) default)
            rw [fpAt_cons_succ]
            by_cases heq : fpAt rest k i = mkFp n r1.fps k
            · have hcov := ih c r1 hrest i hi'
              rw [heq, hget] at hcov
              cases hcov
            · rw [Cache.get_put_ne _ _ _ _ heq]
              exact ih c r1 hrest i hi'
        | error s => rw [hlog] at h; cases h

/-- A run against a cache that already holds the correct entry for every
node's fingerprint succeeds with the same values, the same fingerprints,
an unchanged cache, and zero logic invocations. -/
theorem run_warm [Inhabited V] (g : Graph V) (k : Key) (c : Cache V) (r : RunResult V)
    (h : run g k c = .ok r) :
    ∀ cw : Cache V, Covers cw g k r.values → run g k cw = .ok ⟨r.values, fps g k, cw, []⟩ := by
  induction g generalizing c r with
  | nil =>
    intro cw _
    simp only [run] at h
    cases h
    rfl
  | cons n rest ih =>
    intro cw hcov
    simp only [run] at h
    cases hrest : run rest k c with
    | error e => rw [hrest] at h; cases h
    | ok r1 =>
      rw [hrest] at h
      have hfp1 := run_fps rest k c r1 hrest
      dsimp only at h
      have main : ∀ v : V, r.values = v :: r1.values →
          run (n :: rest) k cw = .ok ⟨r.values, fps (n :: rest) k, cw, []⟩ := by
        intro v hv
        have hcov1 : Covers cw rest k r1.values := by
          intro i hi
          have := hcov (i + 1) (Nat.succ_lt_succ hi)
          rw [fpAt_cons_succ, hv] at this
          exact this
        have hwrest := ih c r1 hrest cw hcov1
        have hhit : cw.get (mkFp n (fps rest k) k) = some v := by
          have := hcov 0 (Nat.succ_pos _)
          rw [hv] at this
          have h0 : fpAt (n :: rest) k 0 = mkFp n (fps rest k) k := by
            rw [fpAt, fps]
            rfl
          rw [h0] at this
          exact this
        simp only [run, hwrest]
        rw [hhit, hv, fps]
      cases hget : r1.cache.get (mkFp n r1.fps k) with
      | some v =>
        rw [hget] at h
        cases h
        exact main v rfl
      | none =>
        rw [hget] at h
        cases hlog : n.logic (n.deps.map (fun d => r1.values.getD d default)) k with
        | ok v =>
          rw [hlog] at h
          cases h
          exact main v rfl
        | error s => rw [hlog] at h; cases h

/-- The invocation record of a run is a sublist of the graph's node names:
each node's logic runs at most once per call. -/
theorem run_invoked_sublist [Inhabited V] (g : Graph V) (k : Key) (c : Cache V) (r : RunResult V)
    (h : run g k c = .ok r) : r.invoked.Sublist (g.map (·.name)) := by
  induction g generalizing c r with
  | nil =>
    simp only [run] at h
    cases h
    simp
  | cons n rest ih =>
    simp only [run] at h
    cases hrest : run rest k c with
    | error e => rw [hrest] at h; cases h
    | ok r1 =>
      rw [hrest] at h
      dsimp only at h
      cases hget : r1.cache.get (mkFp n r1.fps k) with
      | some v =>
        rw [hget] at h
        cases h
        exact List.Sublist.cons _ (ih c r1 hrest)
      | none =>
        rw [hget] at h
        cases hlog : n.logic (n.deps.map (fun d => r1.values.getD d default)) k with
        | ok v =>
          rw [hlog] at h
          cases h
          exact List.Sublist.cons₂ _ (ih c r1 hrest)
        | error s => rw [hlog] at h; cases h

/-- A run from a cache holding no entry for any of the graph's fingerprints
(in particular, a fresh empty cache) invokes every node's logic, provided no
two nodes of the graph share a fingerprint. -/
theorem run_cold_invokes_all [Inhabited V] (g : Graph V) (k : Key) (c : Cache V) (r : RunResult V)
    (h : run g k c = .ok r) (hcold : ∀ f ∈ fps g k, c.get f = none)
    (hnd : (fps g k).Nodup) : r.invoked = g.map (·.name) := by
  induction g generalizing c r with
  | nil =>
    simp only [run] at h
    cases h
    rfl
  | cons n rest ih =>
    simp only [run] at h
    cases hrest : run rest k c with
    | error e => rw [hrest] at h; cases h
    | ok r1 =>
      rw [hrest] at h
      have hfp1 := run_fps rest k c r1 hrest
      dsimp only at h
      have hndr : (fps rest k).Nodup := (List.nodup_cons.mp (by rw [← fps]; exact hnd)).2
      have hnotmem : mkFp n (fps rest k) k ∉ fps rest k :=
        (List.nodup_cons.mp (by rw [← fps]; exact hnd)).1
      have hcoldr : ∀ f ∈ fps rest k, c.get f = none := by
        intro f hf
        exact hcold f (List.mem_cons_of_mem _ hf)
      have hmiss : r1.cache.get (mkFp n r1.fps k) = none := by
        rw [hfp1]
        by_cases hch : r1.cache.get (mkFp n (fps rest k) k) = c.get (mkFp n (fps rest k) k)
        · rw [hch]
          exact hcold _ (by rw [fps]; exact List.mem_cons_self _ _)
        · exact absurd (run_new_entries rest k c r1 hrest _ hch) hnotmem
      rw [hmiss] at h
      cases hlog : n.logic (n.deps.map (fun d => r1.values.getD d default)) k with
      | ok v =>
        rw [hlog] at h
        cases h
        show n.name :: r1.invoked = n.name :: rest.map (·.name)
        rw [ih c r1 hrest hcoldr hndr]
      | error s => rw [hlog] at h; cases h

/-- A failing run decomposes as: a successful run of the strictly upstream
part, then the bottom-most failing node, whose fingerprint missed the cache
and whose logic produced the recorded cause; the error carries that node's
name and the cache as of the failure (downstream nodes were never reached). -/
theorem run_error_decompose [Inhabited V] (g : Graph V) (k : Key) (c : Cache V) (e : CompError V)
    (h : run g k c = .error e) :
    ∃ pre nd post r1, g = pre ++ nd :: post ∧ run post k c = .ok r1 ∧
      r1.cache.get (mkFp nd r1.fps k) = none ∧
      nd.logic (nd.deps.map (fun d => r1.values.getD d default)) k = .error e.cause ∧
      e.nodeId = nd.name ∧ e.cache = r1.cache := by
  induction g generalizing c e with
  | nil =>
    simp only [run] at h
    cases h
  | cons n rest ih =>
    simp only [run] at h
    cases hrest : run rest k c with
    | error e1 =>
      rw [hrest] at h
      cases h
      obtain ⟨pre, nd, post, r1, hsplit, hrun, hmiss, hcause, hname, hcache⟩ := ih c e hrest
      exact ⟨n :: pre, nd, post, r1, by rw [hsplit]; rfl, hrun, hmiss, hcause, hname, hcache⟩
    | ok r1 =>
      rw [hrest] at h
      dsimp only at h
      cases hget : r1.cache.get (mkFp n r1.fps k) with
      | some v => rw [hget] at h; cases h
      | none =>
        rw [hget] at h
        cases hlog : n.logic (n.deps.map (fun d => r1.values.getD d default)) k with
        | ok v => rw [hlog] at h; cases h
        | error s =>
          rw [hlog] at h
          cases h
          exact ⟨[], n, rest, r1, rfl, hrest, hget, by rw [hlog], rfl, rfl⟩


/-! ### Claim theorems -/

/-- C9. Disk tier round-trip and committed-only hits: `get f` after
`put f v` returns `v`; a half-written (temporary, uncommitted) entry never
changes what `get` observes; and `get` hits if and only if a durably
committed (published) entry exists for exactly that fingerprint. -/
theorem disk_tier_roundtrip_committed (c : DiskCache V) (f : Fingerprint) (v : V) :
    ((c.put f v).get f = some v)
    ∧ (∀ fq, (c.beginPut f v).get fq = c.get fq)
    ∧ (∀ fq, (c.get fq).isSome ↔ ∃ df ∈ c.files, df.fp = fq ∧ df.kind = FileKind.final) := by
  refine ⟨?_, ?_, ?_⟩
  · simp [DiskCache.put, DiskCache.beginPut, DiskCache.publish, publishFirst, DiskCache.get,
      List.find?]
  · intro fq
    by_cases hq : f = fq
    · subst hq
      simp [DiskCache.beginPut, DiskCache.get, List.find?]
    · simp [DiskCache.beginPut, DiskCache.get, List.find?, hq]
  · intro fq
    simp [DiskCache.get, List.find?_isSome]

/-- C2. Cache transparency: `evaluate` on a cold (empty) cache and again on
the resulting warm cache return equal values, and the warm call performs
zero invocations of any node's logic — every value is adopted from the
cache. -/
theorem cache_transparency [Inhabited V] (g : Graph V) (field : String) (k : Key)
    (v : V) (r : RunResult V) (h : evaluate g field k Cache.empty = .ok (v, r)) :
    evaluate g field k r.cache = .ok (v, ⟨r.values, r.fps, r.cache, []⟩) := by
  simp only [evaluate] at h ⊢
  cases hrun : run g k Cache.empty with
  | error e => rw [hrun] at h; cases h
  | ok r0 =>
    rw [hrun] at h
    cases hidx : fieldIndex g field with
    | none => rw [hidx] at h; cases h
    | some i =>
      rw [hidx] at h
      cases h
      have hwarm := run_warm g k Cache.empty _ hrun _ (run_cache_covers g k Cache.empty _ hrun)
      rw [hwarm]
      dsimp only
      rw [run_fps g k Cache.empty _ hrun]

/-- C3. Determinism: for a fixed graph and key, two evaluation calls return
equal values and derive equal fingerprints at every node; moreover the
fingerprint combination is a pure function of the tuple
(logic identity, dependency fingerprints, key hash) — independent of the
node's name, its logic function, or anything else. -/
theorem evaluate_deterministic [Inhabited V] (g : Graph V) (k : Key) (r r2 : RunResult V)
    (h1 : run g k Cache.empty = .ok r) (h2 : run g k Cache.empty = .ok r2) :
    (r.values = r2.values ∧ r.fps = r2.fps)
    ∧ ∀ (n1 n2 : Node V) (fs1 fs2 : List Fingerprint) (k1 k2 : Key),
        n1.logicId = n2.logicId → depFps fs1 n1.deps = depFps fs2 n2.deps →
        keyHash k1 = keyHash k2 → mkFp n1 fs1 k1 = mkFp n2 fs2 k2 := by
  constructor
  · have : r = r2 := by
      have := h1.symm.trans h2
      exact Except.ok.inj this
    rw [this]
    exact ⟨rfl, rfl⟩
  · intro n1 n2 fs1 fs2 k1 k2 hlid hdep hkey
    have hlen : n1.deps.length = n2.deps.length := by
      have := congrArg List.length hdep
      simpa [depFps] using this
    unfold mkFp
    cases hd1 : n1.deps with
    | nil =>
      cases hd2 : n2.deps with
      | nil => simp [hlid, hkey]
      | cons a l => rw [hd1, hd2] at hlen; cases hlen
    | cons a l =>
      cases hd2 : n2.deps with
      | nil => rw [hd1, hd2] at hlen; cases hlen
      | cons b l2 =>
        rw [← hd1, ← hd2]
        have hne1 : n1.deps.isEmpty = false := by rw [hd1]; rfl
        have hne2 : n2.deps.isEmpty = false := by rw [hd2]; rfl
        rw [hne1, hne2]
        simp [hlid, hdep]

/-- C6. Diamond-dependency deduplication: within one evaluation call, every
node's logic — in particular an upstream node shared by several downstream
nodes — is invoked at most once; starting from a cold cache (with no two
nodes sharing a fingerprint) it is invoked exactly once. The same
fingerprint is never recomputed twice within one call. -/
theorem diamond_dedup [Inhabited V] (g : Graph V) (k : Key) (c : Cache V) (r : RunResult V)
    (hrun : run g k c = .ok r) (hnames : (g.map (·.name)).Nodup) :
    (∀ n ∈ g, r.invoked.count n.name ≤ 1)
    ∧ (c = Cache.empty → (fps g k).Nodup → ∀ n ∈ g, r.invoked.count n.name = 1) := by
  constructor
  · intro n _
    calc r.invoked.count n.name
        ≤ (g.map (·.name)).count n.name :=
          (run_invoked_sublist g k c r hrun).count_le n.name
      _ ≤ 1 := List.nodup_iff_count_le_one.mp hnames n.name
  · intro hc hnd n hn
    subst hc
    have hall := run_cold_invokes_all g k Cache.empty r hrun (fun f _ => rfl) hnd
    rw [hall]
    have hmem : n.name ∈ g.map (·.name) := List.mem_map_of_mem _ hn
    have h1 : 0 < (g.map (·.name)).count n.name := List.count_pos_iff.mpr hmem
    have h2 : (g.map (·.name)).count n.name ≤ 1 := List.nodup_iff_count_le_one.mp hnames n.name
    omega

/-- C10. A freshly constructed `CacheToRam` instance starts with an empty
store — it holds no entry for any fingerprint, regardless of what any
previous instance cached — so the first call on a rebuilt pipeline
recomputes (invokes the logic of) every node. -/
theorem cacheToRam_fresh_instance_empty [Inhabited V] (g : Graph V) (k : Key) (r : RunResult V)
    (hrun : run g k (CacheToRam.new (V := V)) = .ok r) (hnd : (fps g k).Nodup) :
    (∀ f, (CacheToRam.new (V := V)).get f = none) ∧ r.invoked = g.map (·.name) := by
  refine ⟨fun f => rfl, ?_⟩
  exact run_cold_invokes_all g k CacheToRam.new r hrun (fun f _ => rfl) hnd

theorem drop_append_cons (pre post : Graph V) (n : Node V) :
    (pre ++ n :: post).drop (pre.length + 1) = post := by
  rw [List.append_cons]
  have h : pre.length + 1 = (pre ++ [n]).length := by simp
  rw [h]
  exact List.drop_left _ _

/-- C5. Evaluation failure atomicity: a failing `run` yields a
`ComputationError` carrying the first failing node's id and the original
cause from its logic; the error's cache differs from the starting cache only
at fingerprints of strictly upstream nodes, so (absent fingerprint
collisions) the cache entries for the failing node and for everything
downstream of it are unchanged by the failed call. -/
theorem evaluation_failure_atomicity [Inhabited V] (g : Graph V) (k : Key) (c : Cache V)
    (e : CompError V) (hrun : run g k c = .error e) :
    ∃ pre nd post r1, g = pre ++ nd :: post ∧ run post k c = .ok r1 ∧
      e.nodeId = nd.name ∧
      nd.logic (nd.deps.map (fun d => r1.values.getD d default)) k = .error e.cause ∧
      (∀ f, e.cache.get f ≠ c.get f → f ∈ fps post k) ∧
      ((fps g k).Nodup →
        ∀ f ∈ (fps g k).take (pre.length + 1), e.cache.get f = c.get f) := by
  obtain ⟨pre, nd, post, r1, hsplit, hok, hmiss, hcause, hname, hcache⟩ :=
    run_error_decompose g k c e hrun
  refine ⟨pre, nd, post, r1, hsplit, hok, hname, hcause, ?_, ?_⟩
  · intro f hf
    rw [hcache] at hf
    exact run_new_entries post k c r1 hok f hf
  · intro hnd f hmemtake
    by_contra hne
    rw [hcache] at hne
    have hmem : f ∈ fps post k := run_new_entries post k c r1 hok f hne
    have hdropfps : (fps g k).drop (pre.length + 1) = fps post k := by
      rw [fps_drop, hsplit, drop_append_cons]
    have hdisj : List.Disjoint ((fps g k).take (pre.length + 1)) ((fps g k).drop (pre.length + 1)) :=
      List.disjoint_take_drop hnd (le_refl _)
    rw [hdropfps] at hdisj
    exact hdisj hmemtake hmem

theorem fps_append_drop (xs g : Graph V) (k : Key) :
    (fps (xs ++ g) k).drop xs.length = fps g k := by
  rw [fps_drop, List.drop_left]

/-- C8. Referential stability across composition: a successful composition
only prepends new nodes — the previous graph survives unchanged as a suffix
(no node is mutated in place), and every previously reachable node keeps its
logic identity and its fingerprint, for every key. -/
theorem compose_referential_stability (g : Graph V) (L : Layer V) (g2 : Graph V)
    (h : compose g L = .ok g2) :
    ∃ xs, g2 = xs ++ g ∧ ∀ k : Key,
      (fps g2 k).drop xs.length = fps g k ∧
      ∀ i : Nat, fpAt g2 k (xs.length + i) = fpAt g k i := by
  unfold compose at h
  cases hf1 : L.find? (conflictsB g) with
  | some ln => rw [hf1] at h; cases h
  | none =>
    rw [hf1] at h
    cases hf2 : L.find? (fun ln => (missingDep g ln).isSome) with
    | some ln => rw [hf2] at h; cases h
    | none =>
      rw [hf2] at h
      have hg2 : g2 = composeNodes g L.length 0 L ++ g := (Except.ok.inj h).symm
      refine ⟨composeNodes g L.length 0 L, hg2, fun k => ⟨?_, ?_⟩⟩
      · rw [hg2, fps_append_drop]
      · intro i
        rw [hg2, fpAt, fpAt, listGetD_drop (fps (composeNodes g L.length 0 L ++ g) k) _ i 0
          |>.symm, fps_append_drop]

theorem fieldIndex_mem (g : Graph V) (s : String) (h : s ∈ fieldNames g) :
    ∃ i, fieldIndex g s = some i ∧ i < g.length := by
  induction g with
  | nil => cases h
  | cons n rest ih =>
    by_cases hn : n.name = s
    · exact ⟨0, by simp [fieldIndex, hn], by simp⟩
    · have hs : s ∈ fieldNames rest := by
        rcases List.mem_cons.mp h with h1 | h1
        · exact absurd h1.symm hn
        · exact h1
      obtain ⟨i, hi, hlt⟩ := ih hs
      refine ⟨i + 1, by simp [fieldIndex, hn, hi], by simp; omega⟩

theorem composeNodes_length (g : Graph V) (m : Nat) :
    ∀ (L2 : List (LayerNode V)) (p : Nat), (composeNodes g m p L2).length = L2.length := by
  intro L2
  induction L2 with
  | nil => intro p; rfl
  | cons ln rest ih => intro p; simp [composeNodes, ih]

theorem wfB_composeNodes (g : Graph V) (m : Nat) :
    ∀ (L2 : List (LayerNode V)) (p : Nat), p + L2.length = m →
    (∀ ln ∈ L2, ∀ s ∈ ln.deps, s ∈ fieldNames g) → wfB g = true →
    wfB (composeNodes g m p L2 ++ g) = true := by
  intro L2
  induction L2 with
  | nil => intro p _ _ hwf; simpa [composeNodes] using hwf
  | cons ln rest ih =>
    intro p hp hdeps hwf
    simp only [List.length_cons] at hp
    show wfB (composeNode g m p ln :: (composeNodes g m (p + 1) rest ++ g)) = true
    rw [wfB, Bool.and_eq_true]
    constructor
    · rw [List.all_eq_true]
      intro d hd
      simp only [composeNode, List.mem_map] at hd
      obtain ⟨s, hs, rfl⟩ := hd
      obtain ⟨i, hfi, hlt⟩ := fieldIndex_mem g s (hdeps ln (List.mem_cons_self _ _) s hs)
      have hres : resolveIndex g s = i := by rw [resolveIndex, hfi]; rfl
      rw [hres]
      simp only [List.length_append, composeNodes_length]
      simp only [decide_eq_true_eq]
      omega
    · exact ih (p + 1) (by omega)
        (fun l2 h2 s hs => hdeps l2 (List.mem_cons_of_mem _ h2) s hs) hwf

/-- C4. Fail-fast composition errors: a layer output whose name collides
with an existing field not marked override makes composition fail with
`nameConflict`; absent conflicts, a dependency naming a nonexistent upstream
field makes it fail with `unresolvedDependency`. Both surface at
composition time and no graph is produced (the result is an error); a graph
that composition does produce is well-formed, so neither error can resurface
at evaluation time. -/
theorem compose_fail_fast (g : Graph V) (L : Layer V) :
    ((∃ ln ∈ L, ln.override = false ∧ ln.name ∈ fieldNames g) →
        ∃ s, compose g L = .error (ComposeError.nameConflict s))
    ∧ ((∀ ln ∈ L, ¬(ln.override = false ∧ ln.name ∈ fieldNames g)) →
        (∃ ln ∈ L, ∃ s ∈ ln.deps, s ∉ fieldNames g) →
        ∃ s, compose g L = .error (ComposeError.unresolvedDependency s))
    ∧ (∀ g2, compose g L = .ok g2 → wfB g = true → wfB g2 = true) := by
  refine ⟨?_, ?_, ?_⟩
  · rintro ⟨ln, hmem, hov, hname⟩
    have hsome : (L.find? (conflictsB g)).isSome := by
      rw [List.find?_isSome]
      refine ⟨ln, hmem, ?_⟩
      simp [conflictsB, hov, List.elem_iff, hname]
    obtain ⟨ln2, hf⟩ := Option.isSome_iff_exists.mp hsome
    exact ⟨ln2.name, by simp [compose, hf]⟩
  · intro hnc
    rintro ⟨ln, hmem, s, hs, hsnot⟩
    have hf1 : L.find? (conflictsB g) = none := by
      rw [List.find?_eq_none]
      intro x hx
      have := hnc x hx
      simp only [conflictsB, Bool.and_eq_true, Bool.not_eq_true']
      intro hcontra
      exact this ⟨hcontra.1, List.elem_iff.mp hcontra.2⟩
    have hsome : (L.find? (fun l2 => (missingDep g l2).isSome)).isSome := by
      rw [List.find?_isSome]
      refine ⟨ln, hmem, ?_⟩
      show (missingDep g ln).isSome = true
      rw [missingDep]
      refine List.find?_isSome.mpr ⟨s, hs, ?_⟩
      cases hcb : (fieldNames g).contains s with
      | false => rfl
      | true => exact absurd (List.elem_iff.mp hcb) hsnot
    obtain ⟨ln2, hf2⟩ := Option.isSome_iff_exists.mp hsome
    exact ⟨(missingDep g ln2).getD ln2.name, by simp [compose, hf1, hf2]⟩
  · intro g2 h hwf
    unfold compose at h
    cases hf1 : L.find? (conflictsB g) with
    | some ln => rw [hf1] at h; cases h
    | none =>
      rw [hf1] at h
      cases hf2 : L.find? (fun l2 => (missingDep g l2).isSome) with
      | some ln => rw [hf2] at h; cases h
      | none =>
        rw [hf2] at h
        have hg2 : g2 = composeNodes g L.length 0 L ++ g := (Except.ok.inj h).symm
        have hdeps : ∀ ln ∈ L, ∀ s ∈ ln.deps, s ∈ fieldNames g := by
          intro ln hln s hs
          have hmiss := List.find?_eq_none.mp hf2 ln hln
          by_contra hnot
          apply hmiss
          show (missingDep g ln).isSome = true
          rw [missingDep]
          refine List.find?_isSome.mpr ⟨s, hs, ?_⟩
          cases hcb : (fieldNames g).contains s with
          | false => rfl
          | true => exact absurd (List.elem_iff.mp hcb) hnot
        rw [hg2]
        exact wfB_composeNodes g L.length L 0 (by omega) hdeps hwf

/-- C7. The key is hashed only at leaves: a source (leaf) node's fingerprint
combines its logic identity with the hash of the key; a non-leaf node's
fingerprint combines its logic identity with the ordered dependency
fingerprints and contains no direct hash of the key — if its dependencies'
fingerprints agree for two keys, its own fingerprint agrees as well. -/
theorem fingerprint_key_only_at_leaves (g : Graph V) (k : Key) (i : Nat) (h : i < g.length) :
    ((g.get ⟨i, h⟩).deps = [] →
        fpAt g k i = Nat.pair (g.get ⟨i, h⟩).logicId (Nat.pair 1 (keyHash k)))
    ∧ ((g.get ⟨i, h⟩).deps ≠ [] →
        (fpAt g k i = Nat.pair (g.get ⟨i, h⟩).logicId
            (Nat.pair 0 (encodeList ((g.get ⟨i, h⟩).deps.map (fun d => fpAt g k (i + 1 + d))))))
        ∧ ∀ k2 : Key,
            (g.get ⟨i, h⟩).deps.map (fun d => fpAt g k (i + 1 + d))
              = (g.get ⟨i, h⟩).deps.map (fun d => fpAt g k2 (i + 1 + d)) →
            fpAt g k i = fpAt g k2 i) := by
  have hemp : (g.get ⟨i, h⟩).deps ≠ [] → (g.get ⟨i, h⟩).deps.isEmpty = false := by
    intro hne
    cases hd : (g.get ⟨i, h⟩).deps with
    | nil => exact absurd hd hne
    | cons a l => rfl
  constructor
  · intro hleaf
    rw [fpAt_node g k i h, hleaf]
    rfl
  · intro hne
    constructor
    · rw [fpAt_node g k i h, hemp hne]
      simp
    · intro k2 hmaps
      rw [fpAt_node g k i h, fpAt_node g k2 i h, hemp hne]
      simp only [Bool.false_eq_true, if_false]
      rw [hmaps]

/-! ### Invalidation locality -/

theorem dependsOn_lt (g : Graph V) (a b : Nat) (h : DependsOn g a b) : a < b := by
  induction h with
  | direct i d hh hmem => omega
  | step i d j hh hmem hdep ih => omega

theorem fpAt_out (g : Graph V) (k : Key) (i : Nat) (h : g.length ≤ i) : fpAt g k i = 0 := by
  rw [fpAt]
  exact List.getD_eq_default _ _ (by rw [fps_length]; exact h)

/-- Nodes strictly upstream of a changed node keep their fingerprints. -/
theorem change_upstream_eq (pre post : Graph V) (n n2 : Node V) (k : Key) (i : Nat)
    (hi : pre.length < i) :
    fpAt (pre ++ n2 :: post) k i = fpAt (pre ++ n :: post) k i := by
  obtain ⟨t, rfl⟩ : ∃ t, i = pre.length + 1 + t := ⟨i - (pre.length + 1), by omega⟩
  have h1 : fpAt (pre ++ n :: post) k (pre.length + 1 + t) = fpAt post k t := by
    rw [← fpAt_drop (pre ++ n :: post) k (pre.length + 1) t, drop_append_cons]
  have h2 : fpAt (pre ++ n2 :: post) k (pre.length + 1 + t) = fpAt post k t := by
    rw [← fpAt_drop (pre ++ n2 :: post) k (pre.length + 1) t, drop_append_cons]
  rw [h1, h2]

/-- The fingerprint of the node whose logic identity changed differs. -/
theorem change_at_j (pre post : Graph V) (n n2 : Node V) (k : Key)
    (hdeps : n2.deps = n.deps) (hlid : n2.logicId ≠ n.logicId) :
    fpAt (pre ++ n2 :: post) k pre.length ≠ fpAt (pre ++ n :: post) k pre.length := by
  have e1 : fpAt (pre ++ n :: post) k pre.length = mkFp n (fps post k) k := by
    have h0 := fpAt_drop (pre ++ n :: post) k pre.length 0
    rw [List.drop_left, Nat.add_zero] at h0
    rw [← h0]
    simp [fpAt, fps]
  have e2 : fpAt (pre ++ n2 :: post) k pre.length = mkFp n2 (fps post k) k := by
    have h0 := fpAt_drop (pre ++ n2 :: post) k pre.length 0
    rw [List.drop_left, Nat.add_zero] at h0
    rw [← h0]
    simp [fpAt, fps]
  rw [e1, e2]
  unfold mkFp
  rw [hdeps]
  intro hcontra
  by_cases hemp : n.deps.isEmpty
  · rw [if_pos hemp, if_pos hemp] at hcontra
    exact hlid (Nat.pair_eq_pair.mp hcontra).1
  · rw [if_neg hemp, if_neg hemp] at hcontra
    exact hlid (Nat.pair_eq_pair.mp hcontra).1

theorem dependsOn_inv (g : Graph V) (i j : Nat) (h : DependsOn g i j) :
    ∃ d, ∃ hlen : i < g.length, d ∈ (g.get ⟨i, hlen⟩).deps ∧
      (i + 1 + d = j ∨ DependsOn g (i + 1 + d) j) := by
  cases h with
  | direct i d hlen hmem => exact ⟨d, hlen, hmem, Or.inl rfl⟩
  | step i d j hlen hmem hdep => exact ⟨d, hlen, hmem, Or.inr hdep⟩

theorem locality_aux (pre post : Graph V) (n n2 : Node V) (k : Key)
    (hdeps : n2.deps = n.deps) (hlid : n2.logicId ≠ n.logicId) :
    ∀ m i, pre.length - i ≤ m → i < (pre ++ n :: post).length →
      ((i = pre.length ∨ DependsOn (pre ++ n :: post) i pre.length) →
          fpAt (pre ++ n2 :: post) k i ≠ fpAt (pre ++ n :: post) k i)
      ∧ (¬(i = pre.length ∨ DependsOn (pre ++ n :: post) i pre.length) →
          fpAt (pre ++ n2 :: post) k i = fpAt (pre ++ n :: post) k i) := by
  intro m
  induction m with
  | zero =>
    intro i hle hi
    rcases Nat.lt_or_ge pre.length i with hgt | hge
    · constructor
      · rintro (rfl | hdep)
        · exact absurd hgt (Nat.lt_irrefl _)
        · have := dependsOn_lt _ _ _ hdep
          exact absurd hgt (by omega)
      · intro _
        exact change_upstream_eq pre post n n2 k i hgt
    · have hij : i = pre.length := by omega
      subst hij
      constructor
      · intro _
        exact change_at_j pre post n n2 k hdeps hlid
      · intro hn3
        exact absurd (Or.inl rfl) hn3
  | succ m ih =>
    intro i hle hi
    rcases Nat.lt_or_ge i pre.length with hlt | hge
    · have hi2 : i < (pre ++ n2 :: post).length := by
        simp only [List.length_append, List.length_cons] at hi ⊢
        omega
      have hnode : (pre ++ n2 :: post).get ⟨i, hi2⟩ = (pre ++ n :: post).get ⟨i, hi⟩ := by
        simp only [List.get_eq_getElem]
        rw [List.getElem_append_left hlt, List.getElem_append_left hlt]
      have h1 := fpAt_node (pre ++ n :: post) k i hi
      have h2 := fpAt_node (pre ++ n2 :: post) k i hi2
      rw [hnode] at h2
      constructor
      · rintro (rfl | hdep)
        · exact absurd hlt (Nat.lt_irrefl _)
        · obtain ⟨d, hlen, hmem, hrest⟩ := dependsOn_inv _ i pre.length hdep
          have hmem2 : d ∈ ((pre ++ n :: post).get ⟨i, hi⟩).deps := hmem
          have hne : fpAt (pre ++ n2 :: post) k (i + 1 + d) ≠ fpAt (pre ++ n :: post) k (i + 1 + d) := by
            cases hrest with
            | inl heq2 =>
              rw [heq2]
              exact change_at_j pre post n n2 k hdeps hlid
            | inr hdep2 =>
              have ht := dependsOn_lt _ _ _ hdep2
              refine (ih (i + 1 + d) (by omega) ?_).1 (Or.inr hdep2)
              simp only [List.length_append, List.length_cons] at hi ⊢
              omega
          intro hcontra
          rw [h1, h2] at hcontra
          have hempf : ((pre ++ n :: post).get ⟨i, hi⟩).deps.isEmpty = false := by
            cases hdl : ((pre ++ n :: post).get ⟨i, hi⟩).deps with
            | nil => rw [hdl] at hmem2; cases hmem2
            | cons a l => rfl
          rw [if_neg (by rw [hempf]; simp), if_neg (by rw [hempf]; simp)] at hcontra
          have p1 := (Nat.pair_eq_pair.mp hcontra).2
          have p2 := (Nat.pair_eq_pair.mp p1).2
          have pl := encodeList_injective p2
          exact hne (List.map_inj_left.mp pl d hmem2)
      · intro hnot
        have heqd : ∀ d ∈ ((pre ++ n :: post).get ⟨i, hi⟩).deps,
            fpAt (pre ++ n2 :: post) k (i + 1 + d) = fpAt (pre ++ n :: post) k (i + 1 + d) := by
          intro d hmem
          rcases Nat.lt_trichotomy (i + 1 + d) pre.length with hlt2 | heq2 | hgt2
          · have hndep : ¬ DependsOn (pre ++ n :: post) (i + 1 + d) pre.length := by
              intro hdd
              exact hnot (Or.inr (DependsOn.step i d pre.length hi hmem hdd))
            refine (ih (i + 1 + d) (by omega) ?_).2 ?_
            · simp only [List.length_append, List.length_cons] at hi ⊢
              omega
            · rintro (heq3 | hdd)
              · omega
              · exact hndep hdd
          · have hD : DependsOn (pre ++ n :: post) i pre.length := by
              have hD0 := DependsOn.direct i d hi hmem
              rw [heq2] at hD0
              exact hD0
            exact absurd (Or.inr hD) hnot
          · exact change_upstream_eq pre post n n2 k (i + 1 + d) hgt2
        rw [h1, h2]
        by_cases hempf : ((pre ++ n :: post).get ⟨i, hi⟩).deps.isEmpty
        · rw [if_pos hempf, if_pos hempf]
        · rw [if_neg hempf, if_neg hempf, List.map_congr_left heqd]
    · exact ih i (by omega) hi

/-- C1. Invalidation locality: in two graphs identical except that one
node's logic parameter (hence its logic identity) differs, that node and
every node transitively depending on it get different fingerprints, while
every node not downstream of the change keeps an identical fingerprint, for
every key. -/
theorem invalidation_locality (pre post : Graph V) (n n2 : Node V) (k : Key)
    (_hname : n2.name = n.name) (hdeps : n2.deps = n.deps) (hlid : n2.logicId ≠ n.logicId) :
    ∀ i, i < (pre ++ n :: post).length →
      ((i = pre.length ∨ DependsOn (pre ++ n :: post) i pre.length) →
          fpAt (pre ++ n2 :: post) k i ≠ fpAt (pre ++ n :: post) k i)
      ∧ (¬(i = pre.length ∨ DependsOn (pre ++ n :: post) i pre.length) →
          fpAt (pre ++ n2 :: post) k i = fpAt (pre ++ n :: post) k i) :=
  fun i hi => locality_aux pre post n n2 k hdeps hlid pre.length i (by omega) hi

/-! ### Witnesses -/

/-- Witness for C1 at the tutorial chain with Zoom factor 25 vs 50 and key 3:
`crop` (which depends on `zoom`) changes fingerprint; `binarize` (not
downstream of `zoom`) does not. -/
theorem invalidation_locality_witness :
    (fpAt ([exCrop] ++ exZoom 50 :: [exBinarize, exSource]) 3 0
        ≠ fpAt ([exCrop] ++ exZoom 25 :: [exBinarize, exSource]) 3 0)
    ∧ (fpAt ([exCrop] ++ exZoom 50 :: [exBinarize, exSource]) 3 2
        = fpAt ([exCrop] ++ exZoom 25 :: [exBinarize, exSource]) 3 2) :=
  ⟨(invalidation_locality [exCrop] [exBinarize, exSource] (exZoom 25) (exZoom 50) 3
      rfl rfl (by decide) 0 (by decide)).1
      (Or.inr (DependsOn.direct 0 0 (by decide) (by decide))),
   (invalidation_locality [exCrop] [exBinarize, exSource] (exZoom 25) (exZoom 50) 3
      rfl rfl (by decide) 2 (by decide)).2
      (by
        rintro (h | h)
        · exact absurd h (by decide)
        · exact absurd (dependsOn_lt _ _ _ h) (by decide))⟩

/-- Witness for C2: on the tutorial chain at key 3, the warm rerun returns
the cold value 26 with an unchanged cache and zero logic invocations. -/
theorem cache_transparency_witness :
    evaluate (exChain 25) "crop" 3 (runOk (exChain 25) 3 Cache.empty).cache
      = .ok (26, ⟨(runOk (exChain 25) 3 Cache.empty).values,
          (runOk (exChain 25) 3 Cache.empty).fps,
          (runOk (exChain 25) 3 Cache.empty).cache, []⟩) :=
  cache_transparency (exChain 25) "crop" 3 26 (runOk (exChain 25) 3 Cache.empty) rfl

/-- Witness for C3 at the tutorial chain, plus two behaviorally distinct
node objects with equal fingerprint tuples getting equal fingerprints. -/
theorem evaluate_deterministic_witness :
    ((runOk (exChain 25) 3 Cache.empty).values = (runOk (exChain 25) 3 Cache.empty).values
      ∧ (runOk (exChain 25) 3 Cache.empty).fps = (runOk (exChain 25) 3 Cache.empty).fps)
    ∧ mkFp (exZoom 25) [9] 5 = mkFp exZoomAlt [9] 5 :=
  by
  have h := evaluate_deterministic (exChain 25) 3 (runOk (exChain 25) 3 Cache.empty)
      (runOk (exChain 25) 3 Cache.empty) rfl rfl
  exact ⟨h.1, h.2 (exZoom 25) exZoomAlt [9] [9] 5 5 rfl rfl rfl⟩

/-- Witness for C4: composing a colliding output fails with `nameConflict`,
composing an unresolvable dependency fails with `unresolvedDependency`, and
a successful composition yields a well-formed graph. -/
theorem compose_fail_fast_witness :
    (∃ s, compose exBase [exConflictLN] = .error (ComposeError.nameConflict s))
    ∧ (∃ s, compose exBase [exMissingLN] = .error (ComposeError.unresolvedDependency s))
    ∧ wfB (composeOk exBase [exLayerNode]) = true :=
  ⟨(compose_fail_fast exBase [exConflictLN]).1
      ⟨exConflictLN, List.mem_cons_self _ _, rfl, by decide⟩,
   (compose_fail_fast exBase [exMissingLN]).2.1
      (by
        intro ln hln
        rcases List.mem_singleton.mp hln with rfl
        rintro ⟨_, hmem⟩
        exact absurd hmem (by decide))
      ⟨exMissingLN, List.mem_cons_self _ _, "nonexistent", List.mem_cons_self _ _, by decide⟩,
   (compose_fail_fast exBase [exLayerNode]).2.2 (composeOk exBase [exLayerNode]) rfl rfl⟩

/-- Witness for C5: the chain whose zoom stage fails at key 3. -/
theorem evaluation_failure_atomicity_witness :
    ∃ pre nd post r1, exChainBad = pre ++ nd :: post ∧ run post 3 Cache.empty = .ok r1 ∧
      (runErr exChainBad 3 Cache.empty).nodeId = nd.name ∧
      nd.logic (nd.deps.map (fun d => r1.values.getD d default)) 3
        = .error (runErr exChainBad 3 Cache.empty).cause ∧
      (∀ f, (runErr exChainBad 3 Cache.empty).cache.get f ≠ (Cache.empty (V := Nat)).get f →
        f ∈ fps post 3) ∧
      ((fps exChainBad 3).Nodup →
        ∀ f ∈ (fps exChainBad 3).take (pre.length + 1),
          (runErr exChainBad 3 Cache.empty).cache.get f = (Cache.empty (V := Nat)).get f) :=
  by
  have h := evaluation_failure_atomicity exChainBad 3 Cache.empty
    (runErr exChainBad 3 Cache.empty) rfl
  exact h

/-- Witness for C6 on the diamond graph: the shared upstream node's logic is
invoked exactly once in one evaluation call. -/
theorem diamond_dedup_witness :
    (runOk exDiamond 3 Cache.empty).invoked.count "shared" = 1 :=
  by
  have h := diamond_dedup exDiamond 3 Cache.empty (runOk exDiamond 3 Cache.empty) rfl
    (by decide)
  exact h.2 rfl (by decide) exShared
    (List.mem_cons_of_mem _ (List.mem_cons_of_mem _ (List.mem_cons_of_mem _
      (List.mem_cons_self _ _))))

/-- Witness for C7 at the tutorial chain: the source leaf hashes the key,
the zoom transform combines only its logic identity and its dependency's
fingerprint. -/
theorem fingerprint_key_only_at_leaves_witness :
    (fpAt (exChain 25) 3 3 = Nat.pair exSource.logicId (Nat.pair 1 (keyHash 3)))
    ∧ fpAt (exChain 25) 3 1 = Nat.pair 25
        (Nat.pair 0 (encodeList ([0].map (fun d => fpAt (exChain 25) 3 (1 + 1 + d))))) :=
  ⟨(fingerprint_key_only_at_leaves (exChain 25) 3 3 (by decide)).1 rfl,
   ((fingerprint_key_only_at_leaves (exChain 25) 3 1 (by decide)).2 (by decide)).1⟩

/-- Witness for C8: composing the binarize layer onto the base graph keeps
the base graph as an untouched suffix with unchanged fingerprints. -/
theorem compose_referential_stability_witness :
    ∃ xs, composeOk exBase [exLayerNode] = xs ++ exBase ∧ ∀ k : Key,
      (fps (composeOk exBase [exLayerNode]) k).drop xs.length = fps exBase k ∧
      ∀ i : Nat, fpAt (composeOk exBase [exLayerNode]) k (xs.length + i) = fpAt exBase k i :=
  compose_referential_stability exBase [exLayerNode] (composeOk exBase [exLayerNode]) rfl

/-- Witness for C10: a fresh RAM cache instance has no entries, and a run of
the tutorial chain against it invokes every node's logic. -/
theorem cacheToRam_fresh_instance_empty_witness :
    (∀ f, (CacheToRam.new (V := Nat)).get f = none)
    ∧ (runOk (exChain 25) 3 CacheToRam.new).invoked = (exChain 25).map (·.name) :=
  cacheToRam_fresh_instance_empty (exChain 25) 3 (runOk (exChain 25) 3 CacheToRam.new)
    rfl (by decide)
